import Mathlib

/-!
Verification development for the merge engine of `sd_webui_bayesian_merger`
(`merger.py`).  Tensors are modelled as flat lists of exact rationals,
checkpoints as association lists from string keys to tensors, and the
external numeric kernels (`torch.Tensor.half`, `torch.nn.CosineSimilarity`,
`torch.norm`, the scipy filters) as explicit function parameters bundled in
`ExtOps`, since they are collaborators outside the merge engine proper.
Python dictionaries are modelled as association lists with unique keys,
keeping insertion order; `KeyError` / `IndexError` / `ValueError` become
values of `Except String`.
-/

set_option maxHeartbeats 1000000

namespace BayesianMerger

/-! ### Character-list string primitives

`merger.py` decides everything about a key with Python substring tests
(`"model" in key`), `str.startswith`, `str.replace` and three `re.search`
patterns of the shape `\.input_blocks\.(\d+)\.`.  We implement those
operations on `List Char` and wrap them for `String`. -/

/-- Is `p` a prefix of `s` (Python `s.startswith(p)` on exploded strings)? -/
def listIsPfx : List Char → List Char → Bool
  | [], _ => true
  | _ :: _, [] => false
  | a :: as, b :: bs => a == b && listIsPfx as bs

/-- Does `p` occur as a contiguous substring of `s` (Python `p in s`)? -/
def listHasSub (p : List Char) : List Char → Bool
  | [] => listIsPfx p []
  | s@(_ :: rest) => listIsPfx p s || listHasSub p rest

/-- Value of a list of decimal digits (Python `int` on the captured group). -/
def digitsVal (ds : List Char) : Nat :=
  ds.foldl (fun a c => a * 10 + (c.toNat - 48)) 0

/-- Try to match `p ++ digits+ ++ "."` at the head of `s`, returning the
numeric value of the digit group.  This is the anchored form of the regex
`p(\d+)\.` used by `Merger.merge_key`: the greedy `\d+` takes the maximal
digit run, and since shortening a digit run can only expose another digit,
backtracking never helps — the anchored match succeeds iff the maximal run
is non-empty and followed by a dot. -/
def matchNumAt (p s : List Char) : Option Nat :=
  if listIsPfx p s then
    let rest := s.drop p.length
    let ds := rest.takeWhile Char.isDigit
    if ds ≠ [] ∧ (rest.drop ds.length).head? = some '.' then
      some (digitsVal ds)
    else none
  else none

/-- Leftmost match of `p ++ digits+ ++ "."` inside `s` (Python
`re.search` with pattern `p(\d+)\.`), returning the captured number. -/
def searchNumSub (p : List Char) : List Char → Option Nat
  | [] => matchNumAt p []
  | s@(_ :: rest) =>
    match matchNumAt p s with
    | some n => some n
    | none => searchNumSub p rest

/-- Python `s.replace(pat, rep)`: replace all non-overlapping occurrences of
`pat` in `s`, scanning left to right. -/
def replaceSub (pat rep : List Char) (s : List Char) : List Char :=
  match s with
  | [] => []
  | c :: rest =>
    if pat ≠ [] ∧ listIsPfx pat (c :: rest) then
      rep ++ replaceSub pat rep (rest.drop (pat.length - 1))
    else
      c :: replaceSub pat rep rest
termination_by s.length
decreasing_by
  · simp only [List.length_cons]
    have := List.length_drop (pat.length - 1) rest
    omega
  · simp only [List.length_cons]; omega

/-- Python `p in s` for strings. -/
def sContains (p s : String) : Bool := listHasSub p.toList s.toList

/-- Python `s.startswith(p)` for strings. -/
def sStartsWith (p s : String) : Bool := listIsPfx p.toList s.toList

/-- Python `s.replace(pat, rep)` for strings. -/
def sReplace (s pat rep : String) : String :=
  ⟨replaceSub pat.toList rep.toList s.toList⟩

/-- Python `re.search(pat ++ r"(\d+)\.", key)` capture, for the three block
patterns of `Merger.merge_key`. -/
def searchNum (p key : String) : Option Nat := searchNumSub p.toList key.toList

/-! ### Tensors

A tensor is a flat list of exact rationals; the merge formulas only ever
combine tensors elementwise (scalar multiplication, addition, subtraction),
so the flattened view is faithful for shared keys, whose shapes agree by
the stated data-model invariant. -/

/-- A dense tensor, flattened to its list of entries. -/
abbrev Tensor := List ℚ

/-- Scalar multiplication `a * t` (torch broadcasts over all entries). -/
def tScale (a : ℚ) (t : Tensor) : Tensor := t.map (fun x => a * x)

/-- Elementwise tensor addition. -/
def tAdd (t u : Tensor) : Tensor := List.zipWith (fun x y => x + y) t u

/-- Elementwise tensor subtraction. -/
def tSub (t u : Tensor) : Tensor := List.zipWith (fun x y => x - y) t u

/-- `torch.zeros_like t`. -/
def tZerosLike (t : Tensor) : Tensor := t.map (fun _ => 0)

/-- `torch.dot` of two flattened tensors. -/
def tDot (t u : Tensor) : ℚ := (List.zipWith (fun x y => x * y) t u).sum

/-! ### Constants from `merger.py` -/

/-- `MAX_TOKENS = 77`. -/
def MAX_TOKENS : Nat := 77

/-- `NUM_INPUT_BLOCKS = 12`. -/
def NUM_INPUT_BLOCKS : Nat := 12

/-- `NUM_MID_BLOCK = 1`. -/
def NUM_MID_BLOCK : Nat := 1

/-- `NUM_OUTPUT_BLOCKS = 12`. -/
def NUM_OUTPUT_BLOCKS : Nat := 12

/-- `NUM_TOTAL_BLOCKS = 25`. -/
def NUM_TOTAL_BLOCKS : Nat := NUM_INPUT_BLOCKS + NUM_MID_BLOCK + NUM_OUTPUT_BLOCKS

/-- The canonical CLIP position-ids key
(`KEY_POSITION_IDS` in `merger.py`). -/
def KEY_POSITION_IDS : String :=
  "cond_stage_model.transformer.text_model.embeddings.position_ids"

/-- The tensor `torch.tensor([list(range(MAX_TOKENS))], dtype=torch.int64)`,
flattened: the sequence `0, 1, ..., 76`. -/
def canonicalPositionIds : Tensor := (List.range MAX_TOKENS).map (fun n => (n : ℚ))

/-- The `NAI_KEYS` prefix-remapping table: alternate text-encoder prefixes
(keys) and their canonical replacements (values), in source order. -/
def NAI_KEYS : List (String × String) :=
  [("cond_stage_model.transformer.embeddings.",
    "cond_stage_model.transformer.text_model.embeddings."),
   ("cond_stage_model.transformer.encoder.",
    "cond_stage_model.transformer.text_model.encoder."),
   ("cond_stage_model.transformer.final_layer_norm.",
    "cond_stage_model.transformer.text_model.final_layer_norm.")]

/-! ### Python dictionaries as association lists -/

/-- Lookup in an insertion-ordered dictionary (`d[k]` / `k in d`). -/
def dfind {α : Type} : List (String × α) → String → Option α
  | [], _ => none
  | (k0, v0) :: rest, k => if k0 = k then some v0 else dfind rest k

/-- Dictionary assignment `d[k] = v`: update the entry in place when the key
is present, append it otherwise. -/
def dinsert {α : Type} : List (String × α) → String → α → List (String × α)
  | [], k, v => [(k, v)]
  | (k0, v0) :: rest, k, v =>
    if k0 = k then (k0, v) :: rest else (k0, v0) :: dinsert rest k v

/-- Dictionary deletion `del d[k]` (dictionary keys are unique, so removing
every entry with key `k` agrees with deleting the one entry). -/
def ddel {α : Type} : List (String × α) → String → List (String × α)
  | [], _ => []
  | (k0, v0) :: rest, k => if k0 = k then ddel rest k else (k0, v0) :: ddel rest k

/-- Subscript access `d[k]`, raising `KeyError` when the key is absent. -/
def dget {α : Type} (d : List (String × α)) (k : String) : Except String α :=
  match dfind d k with
  | some v => .ok v
  | none => .error ("KeyError: " ++ k)

/-- Python list indexing `xs[i]`, raising `IndexError` when out of range. -/
def listIx (xs : List ℚ) (i : Nat) : Except String ℚ :=
  match xs.get? i with
  | some v => .ok v
  | none => .error "IndexError: list index out of range"

/-- A checkpoint: the insertion-ordered key-to-tensor dictionary produced by
the CheckpointStore collaborator. -/
abbrev Model := List (String × Tensor)

/-! ### Configuration and external numeric kernels -/

/-- The configuration fields of `cfg` consumed by the merge engine. -/
structure Cfg where
  merge_mode : String
  cosine_mode : Bool
  skip_position_ids : Nat
  best_precision : String

/-- The external tensor kernels the engine calls but does not define:
`torch.Tensor.half` (precision narrowing), `torch.nn.CosineSimilarity(dim=0)`,
`torch.norm`, and the two scipy filters used by cosine `add_difference`.
They are opaque collaborators (spec section 5 treats tensor operations as
atomic external calls), so the embedding is parametric in them. -/
structure ExtOps where
  half : Tensor → Tensor
  cosSim : Tensor → Tensor → ℚ
  norm : Tensor → ℚ
  medianFilter3 : Tensor → Tensor
  gaussianFilter1 : Tensor → Tensor

/-- A trivial instantiation of the external kernels, used to evaluate the
engine on concrete inputs. -/
def extId : ExtOps :=
  { half := fun t => t
    cosSim := fun _ _ => 0
    norm := fun _ => 1
    medianFilter3 := fun t => t
    gaussianFilter1 := fun t => t }

/-- The condition `not best or self.cfg.best_precision == "16"` guarding
every `.half()` narrowing. -/
def halfCond (cfg : Cfg) (best : Bool) : Bool :=
  !best || (cfg.best_precision == "16")

/-! ### `fix_clip`, `fix_key`, `fix_nai_keys`, `fix_model` -/

/-- `fix_clip`: if the canonical position-ids key is present, overwrite its
tensor with the freshly regenerated sequence `[0, ..., 76]`. -/
def fix_clip (model : Model) : Model :=
  if (dfind model KEY_POSITION_IDS).isSome then
    dinsert model KEY_POSITION_IDS canonicalPositionIds
  else model

/-- One step of `fix_key` for a single `NAI_KEYS` entry `(nk, tgt)`: if
`key` starts with `nk`, move the tensor to `key.replace(nk, tgt)` and delete
the old entry (the source inserts first, then deletes).  The `none` branch
mirrors Python's `model[key]` lookup, which cannot fail when `key` is a live
dictionary key. -/
def fix_key_step (model : Model) (key : String) (nk tgt : String) : Model :=
  if sStartsWith nk key then
    match dfind model key with
    | some v => ddel (dinsert model (sReplace key nk tgt) v) key
    | none => model
  else model

/-- `fix_key`: try the three `NAI_KEYS` prefixes in order on one key. -/
def fix_key_aux : List (String × String) → Model → String → Model
  | [], model, _ => model
  | (nk, tgt) :: rest, model, key => fix_key_aux rest (fix_key_step model key nk tgt) key

/-- `fix_key model key`. -/
def fix_key (model : Model) (key : String) : Model :=
  fix_key_aux NAI_KEYS model key

/-- `fix_nai_keys`: apply `fix_key` for every key of the model.  (The Python
loop iterates the dictionary while renaming; renamed keys never start with
an NAI prefix again, so folding over the snapshot of original keys is
equivalent.) -/
def fix_nai_keys (model : Model) : Model :=
  (model.map Prod.fst).foldl fix_key model

/-- `fix_model = fix_clip after fix_nai_keys`, applied to the assembled
output before persistence. -/
def fix_model (model : Model) : Model :=
  fix_clip (fix_nai_keys model)

/-! ### Block-index resolution (`Merger.merge_key`, lines 196-218) -/

/-- The `weight_index` computed for a key already known to contain
`"model.diffusion_model."`: `-1` is the sentinel for "no block", otherwise
the if/elif chain resolves `time_embed`, `.out.`, input, middle and output
block patterns in source order. -/
def weightIndexOf (key : String) : Int :=
  if sContains "time_embed" key then 0
  else if sContains ".out." key then (NUM_TOTAL_BLOCKS : Int) - 1
  else match searchNum ".input_blocks." key with
    | some n => (n : Int)
    | none =>
      if (searchNum ".middle_block." key).isSome then (NUM_INPUT_BLOCKS : Int)
      else match searchNum ".output_blocks." key with
        | some n => (NUM_INPUT_BLOCKS : Int) + (NUM_MID_BLOCK : Int) + (n : Int)
        | none => -1

/-- The `current_bases` computation of `merge_key`: keys outside the
diffusion backbone (and backbone keys matching no block pattern) use the
scalar `bases` unchanged; a resolved index at or above 25 raises
`ValueError`; otherwise every weight vector is indexed at the block. -/
def resolveBases (key : String) (weights : List (String × List ℚ))
    (bases : List (String × ℚ)) : Except String (List (String × ℚ)) :=
  if sContains "model.diffusion_model." key then
    let wi := weightIndexOf key
    if (NUM_TOTAL_BLOCKS : Int) ≤ wi then
      .error ("ValueError: illegal block index " ++ key)
    else if 0 ≤ wi then
      weights.mapM (fun p => (listIx p.2 wi.toNat).map (fun v => (p.1, v)))
    else .ok bases
  else .ok bases

/-! ### Cosine-mode similarity machinery -/

/-- `combined_similarity` for a pair of tensors: the mean of the cosine
similarity and the magnitude similarity `dot / (norm * norm)` (the
`.to(torch.float32)` widenings are identities on exact rationals). -/
def combSim (ext : ExtOps) (t0 t1 : Tensor) : ℚ :=
  (ext.cosSim t0 t1 + tDot t0 t1 / (ext.norm t0 * ext.norm t1)) / 2

/-- `numpy` array minimum (`sims.min()`); 0 for the empty array, on which
numpy would raise. -/
def npMin : List ℚ → ℚ
  | [] => 0
  | x :: xs => xs.foldl min x

/-- `numpy` array maximum (`sims.max()`); 0 for the empty array. -/
def npMax : List ℚ → ℚ
  | [] => 0
  | x :: xs => xs.foldl max x

/-- Insert into a sorted list (ascending). -/
def insSorted (x : ℚ) : List ℚ → List ℚ
  | [] => [x]
  | y :: ys => if x ≤ y then x :: y :: ys else y :: insSorted x ys

/-- Sort a rational sample ascending. -/
def sortQ (xs : List ℚ) : List ℚ := xs.foldr insSorted []

/-- Floor of a rational as an integer. -/
def ratFloor (x : ℚ) : Int := ⌊x⌋

/-- Ceiling of a rational as an integer. -/
def ratCeil (x : ℚ) : Int := ⌈x⌉

/-- The virtual index `(n-1)*q/100` used by `np.percentile` on a sample of
size `n`. -/
def pctIdx (n : Nat) (q : ℚ) : ℚ := ((n : ℚ) - 1) * q / 100

/-- `np.percentile(xs, q, method='midpoint')`: with `h = (n-1)*q/100` the
virtual index into the sorted sample, the midpoint method returns
`(sorted[floor h] + sorted[ceil h]) / 2`.  (0 on the empty sample, where
numpy raises.) -/
def npPercentile (xs : List ℚ) (q : ℚ) : ℚ :=
  if (sortQ xs).length = 0 then 0
  else
    ((sortQ xs).getD (ratFloor (pctIdx (sortQ xs).length q)).toNat 0 +
      (sortQ xs).getD (ratCeil (pctIdx (sortQ xs).length q)).toNat 0) / 2

/-- Line 308: `np.delete(sims, np.where(sims < np.percentile(sims, 1)))` —
drop every value strictly below the 1st percentile of the sample. -/
def lowerTrimmed (xs : List ℚ) : List ℚ :=
  xs.filter (fun v => decide (¬ v < npPercentile xs 1))

/-- Lines 308-309: the code's similarity trimming — drop values below the
1st percentile, then drop values above the 99th percentile computed on the
**already lower-trimmed** sample.  (The NaN drop of line 307 is the
identity on exact rationals; see `simsFromRaw`.) -/
def trimSims (xs : List ℚ) : List ℚ :=
  (lowerTrimmed xs).filter (fun v => decide (¬ npPercentile (lowerTrimmed xs) 99 < v))

/-- Modelled from the spec: the trimming as the specification states it —
remove every value below the 1st percentile and every value above the 99th
percentile **of the original sample set** (midpoint interpolation).  Kept
separate from `trimSims` so the two can be compared. -/
def specTrimSims (xs : List ℚ) : List ℚ :=
  xs.filter (fun v =>
    decide (¬ v < npPercentile xs 1) && decide (¬ npPercentile xs 99 < v))

/-- The full Stage-1 sample pipeline on raw collected values, with `none`
standing for a NaN produced by the floating-point similarity computation:
line 307 `sims[~np.isnan(sims)]` drops the NaNs, then `trimSims` trims. -/
def simsFromRaw (raw : List (Option ℚ)) : List ℚ :=
  trimSims (raw.filterMap id)

/-- Stage 1: collect the combined similarity of every non-VAE key of
model_a that contains `"model"` and is shared with model_b. -/
def stage1 (ext : ExtOps) (ma mb : Model) : List ℚ :=
  ma.foldl (fun acc p =>
    if sContains "first_stage_model" p.1 then acc
    else
      if sContains "model" p.1 then
        match dfind mb p.1 with
        | some t1 => acc ++ [combSim ext p.2 t1]
        | none => acc
      else acc) []

/-! ### `Merger.merge_block` -/

/-- The cosine `weighted_sum` branch for a backbone key: renormalise the
key's combined similarity by the trimmed sample's range, shift by alpha,
clip to `[0,1]`, and blend. -/
def cosineBlend (ext : ExtOps) (sims : List ℚ) (alpha : ℚ) (t0 t1 : Tensor) : Tensor :=
  let simab := ext.cosSim t0 t1
  let dot := tDot t0 t1
  let magSim := dot / (ext.norm t0 * ext.norm t1)
  let combined := (simab + magSim) / 2
  let k0 := (combined - npMin sims) / (npMax sims - npMin sims)
  let k1 := k0 - alpha
  let k := min (max k1 0) 1
  tAdd (tScale (1 - k) t0) (tScale k t1)

/-- `Merger.merge_block`: dispatch on cosine mode and `merge_mode`.
`.ok (some t)` is a returned tensor, `.ok none` is Python's implicit `None`
(control falling off the end for an unrecognised mode), `.error` a raised
`KeyError`/`IndexError`. -/
def merge_block (cfg : Cfg) (ext : ExtOps) (current_bases : List (String × ℚ))
    (thetas : List (String × Model)) (key : String) (sims : List ℚ) :
    Except String (Option Tensor) := do
  let ma ← dget thetas "model_a"
  let t0 ← dget ma key
  let mb ← dget thetas "model_b"
  let t1 ← dget mb key
  let alpha ← dget current_bases "alpha"
  if cfg.cosine_mode then
    if cfg.merge_mode = "weighted_sum" then
      if sContains "first_stage_model" key then
        return some t0
      if sContains "model" key ∧ (dfind mb key).isSome then
        return some (cosineBlend ext sims alpha t0 t1)
    else if cfg.merge_mode = "add_difference" then
      let filteredDiff := ext.gaussianFilter1 (ext.medianFilter3 t1)
      return some (tAdd t0 (tScale alpha filteredDiff))
  else
    if cfg.merge_mode = "weighted_sum" then
      return some (tAdd (tScale (1 - alpha) t0) (tScale alpha t1))
    let mc ← dget thetas "model_c"
    let t2 ← dget mc key
    if cfg.merge_mode = "add_difference" then
      return some (tAdd t0 (tScale alpha (tSub t1 t2)))
  -- line 262: reached by cosine fall-through and by the remaining modes
  let mc ← dget thetas "model_c"
  let t2 ← dget mc key
  if cfg.merge_mode = "weighted_add_difference" then
    return some (tAdd (tScale (1 - alpha) t0) (tScale alpha (tSub t1 t2)))
  let beta ← dget current_bases "beta"
  if cfg.merge_mode = "sum_twice" then
    return some (tAdd (tScale (1 - beta) (tAdd (tScale (1 - alpha) t0) (tScale alpha t1)))
      (tScale beta t2))
  else if cfg.merge_mode = "triple_sum" then
    return some (tAdd (tAdd (tScale (1 - alpha - beta) t0) (tScale alpha t1)) (tScale beta t2))
  else if cfg.merge_mode = "weighted_double_difference" then
    let md ← dget thetas "model_d"
    let t3 ← dget md key
    let me ← dget thetas "model_e"
    let t4 ← dget me key
    return some (tAdd (tScale (1 - alpha) t0)
      (tScale alpha (tAdd (tScale (1 - beta) (tSub t1 t2)) (tScale beta (tSub t3 t4)))))
  return none

/-! ### `Merger.merge_key` -/

/-- `Merger.merge_key`: position-ids special cases, per-key availability
skip, block resolution, formula dispatch and precision narrowing.
`.ok none` is the availability skip (Python's bare `return`); the
`skip_position_ids == 2` branch writes the canonical tensor into model_a
and immediately returns it, which is what the returned pair records. -/
def merge_key (cfg : Cfg) (ext : ExtOps) (key : String)
    (thetas : List (String × Model)) (weights : List (String × List ℚ))
    (bases : List (String × ℚ)) (best : Bool) (sims : List ℚ) :
    Except String (Option (String × Tensor)) := do
  if sContains KEY_POSITION_IDS key then
    if cfg.skip_position_ids = 1 then
      let ma ← dget thetas "model_a"
      let t ← dget ma key
      if halfCond cfg best then
        return some (key, ext.half t)
      return some (key, t)
    else if cfg.skip_position_ids = 2 then
      if halfCond cfg best then
        return some (key, ext.half canonicalPositionIds)
      return some (key, canonicalPositionIds)
  if thetas.any (fun p => (dfind p.2 key).isNone) then
    return none
  let current_bases ← resolveBases key weights bases
  let merged? ← merge_block cfg ext current_bases thetas key sims
  match merged? with
  | none => throw "AttributeError: NoneType has no attribute half"
  | some merged =>
    if halfCond cfg best then
      return some (key, ext.half merged)
    return some (key, merged)

/-! ### `Merger.merge`: the three-stage orchestration -/

/-- Stage 0 transform of model_b (cosine + `add_difference` only): every
key containing `"model"` is replaced by `model_b - model_c` when model_c
has the key, and by the **zero tensor** when it does not (the `.get`
default in the source is dead code under the membership guard). -/
def stage0_model_b (mb mc : Model) : Model :=
  mb.map (fun p =>
    if sContains "model" p.1 then
      match dfind mc p.1 with
      | some t2 => (p.1, tSub p.2 t2)
      | none => (p.1, tZerosLike p.2)
    else p)

/-- Stage 0 on the model set: transform model_b, then `del thetas["model_c"]`. -/
def stage0 (thetas : List (String × Model)) : Except String (List (String × Model)) := do
  let mb ← dget thetas "model_b"
  let mc ← dget thetas "model_c"
  pure (ddel (dinsert thetas "model_b" (stage0_model_b mb mc)) "model_c")

/-- One Stage-2 step: run `merge_key` on one key of model_a and store a
successful result (`merged_model[key] = result[1]`); a `None` result skips
the key. -/
def stage2_step (cfg : Cfg) (ext : ExtOps) (thetas : List (String × Model))
    (weights : List (String × List ℚ)) (bases : List (String × ℚ))
    (best : Bool) (sims : List ℚ) (acc : Model) (key : String) :
    Except String Model := do
  match ← merge_key cfg ext key thetas weights bases best sims with
  | some r => pure (dinsert acc key r.2)
  | none => pure acc

/-- Stage 2: iterate the keys of model_a, accumulating every successful
`merge_key` result into the output dictionary. -/
def stage2 (cfg : Cfg) (ext : ExtOps) (keys : List String)
    (thetas : List (String × Model)) (weights : List (String × List ℚ))
    (bases : List (String × ℚ)) (best : Bool) (sims : List ℚ) :
    Except String Model :=
  keys.foldlM (stage2_step cfg ext thetas weights bases best sims) []

/-- One Stage-3 step for a model_b entry: keys containing `"model"` and not
yet in the output are added (position-ids tri-state first), then narrowed
in place when `halfCond` holds; the read-back `match` mirrors the source's
`merged_model[key].half()`. -/
def stage3_step (cfg : Cfg) (ext : ExtOps) (best : Bool) (acc : Model)
    (p : String × Tensor) : Model :=
  if sContains "model" p.1 ∧ (dfind acc p.1).isNone then
    if sContains KEY_POSITION_IDS p.1 ∧ cfg.skip_position_ids = 1 then acc
    else if sContains KEY_POSITION_IDS p.1 ∧ cfg.skip_position_ids = 2 then
      let acc1 := dinsert acc p.1 canonicalPositionIds
      if halfCond cfg best then
        match dfind acc1 p.1 with
        | some v => dinsert acc1 p.1 (ext.half v)
        | none => acc1
      else acc1
    else
      let acc1 := dinsert acc p.1 p.2
      if halfCond cfg best then
        match dfind acc1 p.1 with
        | some v => dinsert acc1 p.1 (ext.half v)
        | none => acc1
      else acc1
  else acc

/-- Stage 3: iterate every entry of model_b, recovering keys unique to it. -/
def stage3 (cfg : Cfg) (ext : ExtOps) (mb : Model) (m2 : Model) (best : Bool) : Model :=
  mb.foldl (stage3_step cfg ext best) m2

/-- `Merger.merge`, from the loaded model set to the mapping handed to the
CheckpointStore: optional Stage 0, the cosine Stage-1 trimmed similarity
sample, Stage 2 over model_a's keys, Stage 3 over model_b's entries, and
the final `fix_model` pass. -/
def mergeModels (cfg : Cfg) (ext : ExtOps) (thetas0 : List (String × Model))
    (weights : List (String × List ℚ)) (bases : List (String × ℚ))
    (best : Bool) : Except String Model :=
  (if cfg.cosine_mode ∧ cfg.merge_mode = "add_difference"
    then stage0 thetas0 else pure thetas0) >>= fun thetas =>
  dget thetas "model_a" >>= fun ma =>
  dget thetas "model_b" >>= fun mb =>
  stage2 cfg ext (ma.map Prod.fst) thetas weights bases best
    (if cfg.cosine_mode then trimSims (stage1 ext ma mb) else []) >>= fun m2 =>
  pure (fix_model (stage3 cfg ext mb m2 best))

/-! ### Output-file lifecycle (`create_model_out_name`, `remove_previous_ckpt`) -/

/-- The orchestrator's naming state plus the set of files on disk.
`suffix` is `model_name_suffix`, `parent` the directory of model_a. -/
structure MState where
  suffix : String
  parent : String
  model_out_name : String
  output_file : String
  files : Finset String

/-- The working output path for iteration `it`:
`parent / (suffix ++ "-it_<it>.safetensors")`. -/
def mkOutFile (suffix parent : String) (it : Nat) : String :=
  parent ++ "/" ++ (suffix ++ "-it_" ++ toString it ++ ".safetensors")

/-- `create_model_out_name(it)`: recompute `model_out_name` and
`output_file` from the suffix and the iteration counter. -/
def create_model_out_name (it : Nat) (st : MState) : MState :=
  { st with
    model_out_name := st.suffix ++ "-it_" ++ toString it ++ ".safetensors"
    output_file := mkOutFile st.suffix st.parent it }

/-- `remove_previous_ckpt(current_it)`: when `current_it > 1` and the
current output file exists, rename the state to iteration
`current_it - 1` and unlink that file (raising if it is gone), then
recompute the name for `current_it`. -/
def remove_previous_ckpt (current_it : Nat) (st : MState) : Except String MState := do
  let st ←
    if 1 < current_it ∧ st.output_file ∈ st.files then do
      let st := create_model_out_name (current_it - 1) st
      if st.output_file ∈ st.files then
        pure { st with files := st.files.erase st.output_file }
      else
        throw "FileNotFoundError"
    else pure st
  pure (create_model_out_name current_it st)

/-- Saving the merged checkpoint: the output file appears on disk. -/
def saveCkpt (st : MState) : MState :=
  { st with files := insert st.output_file st.files }

/-! ## Helper lemmas: dictionaries -/

/-- The key list of a dictionary. -/
def keysOf {α : Type} (d : List (String × α)) : List String := d.map Prod.fst

theorem dfind_dinsert_self {α : Type} (d : List (String × α)) (k : String) (v : α) :
    dfind (dinsert d k v) k = some v := by
  induction d with
  | nil => simp [dinsert, dfind]
  | cons p rest ih =>
    obtain ⟨k0, v0⟩ := p
    by_cases h : k0 = k <;> simp [dinsert, dfind, h, ih]

theorem dfind_dinsert_ne {α : Type} (d : List (String × α)) (k k' : String) (v : α)
    (h : k' ≠ k) : dfind (dinsert d k v) k' = dfind d k' := by
  have h' : ¬ k = k' := Ne.symm h
  induction d with
  | nil => simp [dinsert, dfind, h']
  | cons p rest ih =>
    obtain ⟨k0, v0⟩ := p
    by_cases h0 : k0 = k
    · subst h0
      simp [dinsert, dfind, h']
    · simp [dinsert, dfind, h0, ih]

theorem dfind_ddel_self {α : Type} (d : List (String × α)) (k : String) :
    dfind (ddel d k) k = none := by
  induction d with
  | nil => simp [ddel, dfind]
  | cons p rest ih =>
    obtain ⟨k0, v0⟩ := p
    by_cases h : k0 = k <;> simp [ddel, dfind, h, ih]

theorem dfind_ddel_ne {α : Type} (d : List (String × α)) (k k' : String)
    (h : k' ≠ k) : dfind (ddel d k) k' = dfind d k' := by
  have h' : ¬ k = k' := Ne.symm h
  induction d with
  | nil => simp [ddel, dfind]
  | cons p rest ih =>
    obtain ⟨k0, v0⟩ := p
    by_cases h0 : k0 = k
    · subst h0
      simp [ddel, dfind, h', ih]
    · by_cases h1 : k0 = k' <;> simp [ddel, dfind, h0, h1, ih, h]

theorem dfind_ne_none_of_mem_keys {α : Type} (d : List (String × α)) (k : String)
    (h : k ∈ keysOf d) : dfind d k ≠ none := by
  induction d with
  | nil => simp [keysOf] at h
  | cons p rest ih =>
    obtain ⟨k0, v0⟩ := p
    by_cases h0 : k0 = k
    · simp [dfind, h0]
    · simp [dfind, h0]
      apply ih
      simp [keysOf] at h ⊢
      rcases h with h | h
      · exact absurd h.symm h0
      · exact h

theorem mem_keys_of_dfind {α : Type} (d : List (String × α)) (k : String) (v : α)
    (h : dfind d k = some v) : k ∈ keysOf d := by
  induction d with
  | nil => simp [dfind] at h
  | cons p rest ih =>
    obtain ⟨k0, v0⟩ := p
    by_cases h0 : k0 = k
    · simp [keysOf, h0]
    · simp [dfind, h0] at h
      simp [keysOf] at ih ⊢
      exact Or.inr (ih h)

theorem mem_keys_dinsert {α : Type} (d : List (String × α)) (k x : String) (v : α)
    (h : x ∈ keysOf (dinsert d k v)) : x = k ∨ x ∈ keysOf d := by
  induction d with
  | nil => simpa [dinsert, keysOf] using h
  | cons p rest ih =>
    obtain ⟨k0, v0⟩ := p
    by_cases h0 : k0 = k
    · subst h0
      simpa [dinsert, keysOf] using h
    · simp [dinsert, keysOf, h0] at h
      rcases h with h | h
      · exact Or.inr (by simp [keysOf, h])
      · rcases ih (by simpa [keysOf] using h) with h' | h'
        · exact Or.inl h'
        · exact Or.inr (by simp [keysOf] at h' ⊢; exact Or.inr h')

theorem mem_keys_ddel {α : Type} (d : List (String × α)) (k x : String) :
    x ∈ keysOf (ddel d k) ↔ x ∈ keysOf d ∧ x ≠ k := by
  induction d with
  | nil => simp [ddel, keysOf]
  | cons p rest ih =>
    obtain ⟨k0, v0⟩ := p
    by_cases h0 : k0 = k
    · subst h0
      simp [ddel, keysOf] at ih ⊢
      constructor
      · intro h
        rcases (ih.mp h) with ⟨h1, h2⟩
        exact ⟨Or.inr h1, h2⟩
      · intro ⟨h1, h2⟩
        rcases h1 with h1 | h1
        · exact absurd h1 h2
        · exact ih.mpr ⟨h1, h2⟩
    · simp [ddel, keysOf, h0] at ih ⊢
      constructor
      · intro h
        rcases h with h | h
        · exact ⟨Or.inl h, by rw [h]; exact h0⟩
        · rcases ih.mp h with ⟨h1, h2⟩
          exact ⟨Or.inr h1, h2⟩
      · intro ⟨h1, h2⟩
        rcases h1 with h1 | h1
        · exact Or.inl h1
        · exact Or.inr (ih.mpr ⟨h1, h2⟩)

theorem keys_dinsert_of_mem {α : Type} (d : List (String × α)) (k : String) (v : α)
    (h : (dfind d k).isSome) : keysOf (dinsert d k v) = keysOf d := by
  induction d with
  | nil => simp [dfind] at h
  | cons p rest ih =>
    obtain ⟨k0, v0⟩ := p
    by_cases h0 : k0 = k
    · simp [dinsert, keysOf, h0]
    · simp [dfind, h0] at h
      simp [dinsert, keysOf, h0] at ih ⊢
      exact ih h

theorem dinsert_dinsert_same {α : Type} (d : List (String × α)) (k : String) (v : α) :
    dinsert (dinsert d k v) k v = dinsert d k v := by
  induction d with
  | nil => simp [dinsert]
  | cons p rest ih =>
    obtain ⟨k0, v0⟩ := p
    by_cases h0 : k0 = k <;> simp [dinsert, h0, ih]

theorem dget_ok {α : Type} (d : List (String × α)) (k : String) (v : α)
    (h : dfind d k = some v) : dget d k = .ok v := by
  simp [dget, h]

/-! ## Helper lemmas: string prefixes -/

theorem listIsPfx_append (a t : List Char) : listIsPfx a (a ++ t) = true := by
  induction a with
  | nil => simp [listIsPfx]
  | cons c cs ih => simp [listIsPfx, ih]

/-- Two prefixes of the same string are comparable. -/
theorem listIsPfx_tri (s a b : List Char) (ha : listIsPfx a s = true)
    (hb : listIsPfx b s = true) :
    listIsPfx a b = true ∨ listIsPfx b a = true := by
  induction s generalizing a b with
  | nil =>
    cases a with
    | nil => exact Or.inl rfl
    | cons x xs => simp [listIsPfx] at ha
  | cons c s ih =>
    cases a with
    | nil => exact Or.inl rfl
    | cons x xs =>
      cases b with
      | nil => exact Or.inr rfl
      | cons y ys =>
        simp [listIsPfx] at ha hb
        rcases ha with ⟨hx, ha⟩
        rcases hb with ⟨hy, hb⟩
        subst hx; subst hy
        rcases ih xs ys ha hb with h | h
        · exact Or.inl (by simp [listIsPfx, h])
        · exact Or.inr (by simp [listIsPfx, h])

/-- If `a` and `b` are prefix-incomparable, a string starting with `a`
cannot start with `b`. -/
theorem sStartsWith_excl (a b k : String)
    (h1 : listIsPfx a.toList b.toList = false)
    (h2 : listIsPfx b.toList a.toList = false)
    (ha : sStartsWith a k = true) : sStartsWith b k = false := by
  by_contra hb
  rw [Bool.not_eq_false] at hb
  rcases listIsPfx_tri k.toList a.toList b.toList ha hb with h | h
  · rw [h1] at h; exact Bool.false_ne_true h
  · rw [h2] at h; exact Bool.false_ne_true h

/-- Replacing a matched leading prefix yields a string starting with the
replacement (list level). -/
theorem replaceSub_startsWith (pat rep s : List Char) (hne : pat ≠ [])
    (h : listIsPfx pat s = true) :
    listIsPfx rep (replaceSub pat rep s) = true := by
  cases s with
  | nil =>
    cases pat with
    | nil => exact absurd rfl hne
    | cons c cs => simp [listIsPfx] at h
  | cons c rest =>
    rw [replaceSub]
    rw [if_pos ⟨hne, h⟩]
    exact listIsPfx_append rep _

/-- Replacing a matched leading prefix produces a string starting with the
replacement. -/
theorem sReplace_startsWith (k nk tgt : String) (hne : nk.toList ≠ [])
    (h : sStartsWith nk k = true) :
    sStartsWith tgt (sReplace k nk tgt) = true :=
  replaceSub_startsWith nk.toList tgt.toList k.toList hne h

/-! ## Helper lemmas: the NAI prefix table -/

/-- Does the key start with one of the three alternate prefixes? -/
def isNaiKey (k : String) : Bool := NAI_KEYS.any (fun p => sStartsWith p.1 k)

/-- No alternate prefix is comparable with any canonical replacement
prefix: they diverge right after `cond_stage_model.transformer.`. -/
theorem nai_tgt_incompat : ∀ a ∈ NAI_KEYS, ∀ b ∈ NAI_KEYS,
    listIsPfx a.1.toList b.2.toList = false ∧
    listIsPfx b.2.toList a.1.toList = false := by decide

/-- Alternate prefixes are empty for no entry. -/
theorem nai_src_ne_nil : ∀ a ∈ NAI_KEYS, a.1.toList ≠ [] := by decide

/-- A key starting with a canonical replacement prefix starts with no
alternate prefix. -/
theorem isNaiKey_false_of_startsWith_tgt (pr : String × String) (hpr : pr ∈ NAI_KEYS)
    (x : String) (hx : sStartsWith pr.2 x = true) : isNaiKey x = false := by
  rw [isNaiKey, List.any_eq_false]
  intro a ha
  have hinc := nai_tgt_incompat a ha pr hpr
  simp only [Bool.not_eq_true]
  exact sStartsWith_excl pr.2 a.1 x hinc.2 hinc.1 hx

/-- Case analysis for `fix_key`: either it is the identity (and then an
alternate-prefixed key must be absent from the model), or exactly one
`NAI_KEYS` entry fires and the key is renamed. -/
theorem fix_key_cases (m : Model) (k : String) :
    (fix_key m k = m ∧ (isNaiKey k = true → dfind m k = none)) ∨
    ∃ pr ∈ NAI_KEYS, ∃ v, sStartsWith pr.1 k = true ∧ dfind m k = some v ∧
      fix_key m k = ddel (dinsert m (sReplace k pr.1 pr.2) v) k := by
  have e1 : ("cond_stage_model.transformer.embeddings.",
    "cond_stage_model.transformer.text_model.embeddings.") ∈ NAI_KEYS := by decide
  have e2 : ("cond_stage_model.transformer.encoder.",
    "cond_stage_model.transformer.text_model.encoder.") ∈ NAI_KEYS := by decide
  have e3 : ("cond_stage_model.transformer.final_layer_norm.",
    "cond_stage_model.transformer.text_model.final_layer_norm.") ∈ NAI_KEYS := by decide
  by_cases s1 : sStartsWith "cond_stage_model.transformer.embeddings." k = true
  · have s2 : sStartsWith "cond_stage_model.transformer.encoder." k = false :=
      sStartsWith_excl _ _ k (by decide) (by decide) s1
    have s3 : sStartsWith "cond_stage_model.transformer.final_layer_norm." k = false :=
      sStartsWith_excl _ _ k (by decide) (by decide) s1
    cases hv : dfind m k with
    | none =>
      left
      refine ⟨?_, fun _ => rfl⟩
      simp [fix_key, fix_key_aux, NAI_KEYS, fix_key_step, s1, s2, s3, hv]
    | some v =>
      right
      refine ⟨_, e1, v, s1, rfl, ?_⟩
      have hd : dfind (ddel (dinsert m
          (sReplace k "cond_stage_model.transformer.embeddings."
            "cond_stage_model.transformer.text_model.embeddings.") v) k) k = none :=
        dfind_ddel_self _ k
      simp [fix_key, fix_key_aux, NAI_KEYS, fix_key_step, s1, s2, s3, hv, hd]
  · rw [Bool.not_eq_true] at s1
    by_cases s2 : sStartsWith "cond_stage_model.transformer.encoder." k = true
    · have s3 : sStartsWith "cond_stage_model.transformer.final_layer_norm." k = false :=
        sStartsWith_excl _ _ k (by decide) (by decide) s2
      cases hv : dfind m k with
      | none =>
        left
        refine ⟨?_, fun _ => rfl⟩
        simp [fix_key, fix_key_aux, NAI_KEYS, fix_key_step, s1, s2, s3, hv]
      | some v =>
        right
        refine ⟨_, e2, v, s2, rfl, ?_⟩
        have hd : dfind (ddel (dinsert m
            (sReplace k "cond_stage_model.transformer.encoder."
              "cond_stage_model.transformer.text_model.encoder.") v) k) k = none :=
          dfind_ddel_self _ k
        simp [fix_key, fix_key_aux, NAI_KEYS, fix_key_step, s1, s2, s3, hv, hd]
    · rw [Bool.not_eq_true] at s2
      by_cases s3 : sStartsWith "cond_stage_model.transformer.final_layer_norm." k = true
      · cases hv : dfind m k with
        | none =>
          left
          refine ⟨?_, fun _ => rfl⟩
          simp [fix_key, fix_key_aux, NAI_KEYS, fix_key_step, s1, s2, s3, hv]
        | some v =>
          right
          refine ⟨_, e3, v, s3, rfl, ?_⟩
          simp [fix_key, fix_key_aux, NAI_KEYS, fix_key_step, s1, s2, s3, hv]
      · rw [Bool.not_eq_true] at s3
        left
        constructor
        · simp [fix_key, fix_key_aux, NAI_KEYS, fix_key_step, s1, s2, s3]
        · intro hnai
          exfalso
          simp [isNaiKey, NAI_KEYS, s1, s2, s3] at hnai

/-- A key with no alternate prefix is untouched by `fix_key`. -/
theorem fix_key_id_of_nonNai (m : Model) (k : String) (h : isNaiKey k = false) :
    fix_key m k = m := by
  rcases fix_key_cases m k with hc | ⟨pr, hpr, v, hs, _, _⟩
  · exact hc.1
  · exfalso
    have : isNaiKey k = true := by
      rw [isNaiKey, List.any_eq_true]
      exact ⟨pr, hpr, hs⟩
    rw [h] at this
    exact Bool.false_ne_true this

/-- After folding `fix_key` over any key list, starting from a model whose
keys are each non-NAI or scheduled in the list, no key of the result starts
with an alternate prefix. -/
theorem foldl_fix_key_nonNai (ks : List String) (acc : Model)
    (h : ∀ x ∈ keysOf acc, isNaiKey x = false ∨ x ∈ ks) :
    ∀ x ∈ keysOf (ks.foldl fix_key acc), isNaiKey x = false := by
  induction ks generalizing acc with
  | nil =>
    intro x hx
    rcases h x hx with h' | h'
    · exact h'
    · simp at h'
  | cons k ks ih =>
    intro x hx
    rw [List.foldl_cons] at hx
    refine ih (fix_key acc k) ?_ x hx
    intro y hy
    rcases fix_key_cases acc k with ⟨hc, hnone⟩ | ⟨pr, hpr, v, hs, hv, hc⟩
    · rw [hc] at hy
      rcases h y hy with h' | h'
      · exact Or.inl h'
      · rcases List.mem_cons.mp h' with h'' | h''
        · subst h''
          by_cases hn : isNaiKey y = true
          · exact absurd (hnone hn) (dfind_ne_none_of_mem_keys acc y hy)
          · exact Or.inl (Bool.not_eq_true _ ▸ hn)
        · exact Or.inr h''
    · rw [hc] at hy
      have hy' := (mem_keys_ddel _ k y).mp hy
      rcases mem_keys_dinsert _ _ _ _ hy'.1 with h' | h'
      · subst h'
        exact Or.inl (isNaiKey_false_of_startsWith_tgt pr hpr _
          (sReplace_startsWith k pr.1 pr.2 (nai_src_ne_nil pr hpr) hs))
      · rcases h y h' with h'' | h''
        · exact Or.inl h''
        · rcases List.mem_cons.mp h'' with h3 | h3
          · exact absurd h3 hy'.2
          · exact Or.inr h3

/-- No key of `fix_nai_keys model` starts with an alternate prefix. -/
theorem fix_nai_keys_nonNai (m : Model) :
    ∀ x ∈ keysOf (fix_nai_keys m), isNaiKey x = false :=
  foldl_fix_key_nonNai (keysOf m) m (fun x hx => Or.inr hx)

/-- Folding `fix_key` over keys that each leave the model unchanged is the
identity. -/
theorem foldl_fix_key_id (ks : List String) (m : Model)
    (h : ∀ k ∈ ks, fix_key m k = m) : ks.foldl fix_key m = m := by
  induction ks with
  | nil => rfl
  | cons k ks ih =>
    rw [List.foldl_cons, h k (List.mem_cons_self k ks)]
    exact ih (fun k' hk' => h k' (List.mem_cons_of_mem k hk'))

/-- `fix_nai_keys` is the identity on a model none of whose keys starts
with an alternate prefix. -/
theorem fix_nai_keys_id (m : Model) (h : ∀ x ∈ keysOf m, isNaiKey x = false) :
    fix_nai_keys m = m :=
  foldl_fix_key_id (keysOf m) m (fun k hk => fix_key_id_of_nonNai m k (h k hk))

/-! ## Helper lemmas: tensor formulas -/

theorem tAdd_tScale_zipWith (a b : ℚ) (t u : Tensor) :
    tAdd (tScale a t) (tScale b u) =
      List.zipWith (fun x y => a * x + b * y) t u := by
  induction t generalizing u with
  | nil => rfl
  | cons x xs ih =>
    cases u with
    | nil => rfl
    | cons y ys =>
      simp only [tScale, List.map_cons, tAdd, List.zipWith_cons_cons]
      exact congrArg _ (ih ys)

theorem zipWith_proj_fst (t u : List ℚ) (h : t.length = u.length) :
    List.zipWith (fun x _ => x) t u = t := by
  induction t generalizing u with
  | nil => simp
  | cons x xs ih =>
    cases u with
    | nil => simp at h
    | cons y ys =>
      simp at h
      simp [ih ys h]

theorem zipWith_proj_snd (t u : List ℚ) (h : t.length = u.length) :
    List.zipWith (fun _ y => y) t u = u := by
  induction t generalizing u with
  | nil =>
    cases u with
    | nil => simp
    | cons y ys => simp at h
  | cons x xs ih =>
    cases u with
    | nil => simp at h
    | cons y ys =>
      simp at h
      simp [ih ys h]

theorem zipWith_affine_zero (t u : Tensor) (h : t.length = u.length) :
    List.zipWith (fun x y => (1 - (0 : ℚ)) * x + (0 : ℚ) * y) t u = t := by
  have hf : (fun x y => (1 - (0 : ℚ)) * x + (0 : ℚ) * y) = fun x (_ : ℚ) => x := by
    funext x y; ring
  rw [hf]
  exact zipWith_proj_fst t u h

theorem zipWith_affine_one (t u : Tensor) (h : t.length = u.length) :
    List.zipWith (fun x y => (1 - (1 : ℚ)) * x + (1 : ℚ) * y) t u = u := by
  have hf : (fun x y => (1 - (1 : ℚ)) * x + (1 : ℚ) * y) = fun (_ : ℚ) (y : ℚ) => y := by
    funext x y; ring
  rw [hf]
  exact zipWith_proj_snd t u h

/-- Lookup through a key-preserving entry map. -/
theorem dfind_map_keypres (m : Model) (f : String × Tensor → String × Tensor)
    (hf : ∀ p, (f p).1 = p.1) (k : String) (t : Tensor) (h : dfind m k = some t) :
    dfind (m.map f) k = some (f (k, t)).2 := by
  induction m with
  | nil => simp [dfind] at h
  | cons p rest ih =>
    obtain ⟨k0, v0⟩ := p
    by_cases h0 : k0 = k
    · subst h0
      simp [dfind] at h
      subst h
      cases hfp : f (k0, v0) with
      | mk a b =>
        have h1 := hf (k0, v0)
        rw [hfp] at h1
        simp only at h1
        subst h1
        simp [List.map_cons, hfp, dfind]
    · simp [dfind, h0] at h
      cases hfp : f (k0, v0) with
      | mk a b =>
        have h1 := hf (k0, v0)
        rw [hfp] at h1
        simp only at h1
        subst h1
        simp only [List.map_cons, hfp, dfind, if_neg h0]
        exact ih h

/-! ## Helper lemmas: concrete percentile evaluations -/

theorem npPercentile_pair_1 : npPercentile [0, 100] 1 = 50 := by
  have hsort : sortQ [0, 100] = [0, 100] := by norm_num [sortQ, insSorted]
  have hidx : pctIdx 2 1 = 1 / 100 := by norm_num [pctIdx]
  have hf : ratFloor (1 / 100 : ℚ) = 0 := by
    rw [ratFloor]; apply Int.floor_eq_iff.mpr; constructor <;> norm_num
  have hc : ratCeil (1 / 100 : ℚ) = 1 := by
    rw [ratCeil]; apply Int.ceil_eq_iff.mpr; constructor <;> norm_num
  rw [npPercentile, hsort]
  norm_num [hidx, hf, hc]

theorem npPercentile_pair_99 : npPercentile [0, 100] 99 = 50 := by
  have hsort : sortQ [0, 100] = [0, 100] := by norm_num [sortQ, insSorted]
  have hidx : pctIdx 2 99 = 99 / 100 := by norm_num [pctIdx]
  have hf : ratFloor (99 / 100 : ℚ) = 0 := by
    rw [ratFloor]; apply Int.floor_eq_iff.mpr; constructor <;> norm_num
  have hc : ratCeil (99 / 100 : ℚ) = 1 := by
    rw [ratCeil]; apply Int.ceil_eq_iff.mpr; constructor <;> norm_num
  rw [npPercentile, hsort]
  norm_num [hidx, hf, hc]

theorem npPercentile_single_99 : npPercentile [100] 99 = 100 := by
  have hsort : sortQ [100] = [100] := by norm_num [sortQ, insSorted]
  have hidx : pctIdx 1 99 = 0 := by norm_num [pctIdx]
  rw [npPercentile, hsort]
  norm_num [hidx, ratFloor, ratCeil]

theorem lowerTrimmed_pair : lowerTrimmed [0, 100] = [100] := by
  rw [lowerTrimmed, npPercentile_pair_1]
  norm_num [List.filter]

/-! ## The claims -/

/-- Claim C1: with cosine mode disabled and merge_mode `weighted_sum`, for
every key shared by model_a and model_b (the shape invariant giving equal
lengths) and every alpha, `merge_block` returns the tensor
`(1-α)·t0 + α·t1`; in particular at `α = 0` the result is exactly `t0` and
at `α = 1` exactly `t1`.  Half-precision narrowing happens only afterwards,
in `merge_key`, so it does not appear here. -/
theorem C1_weighted_sum_formula (cfg : Cfg) (ext : ExtOps) (bases : List (String × ℚ))
    (thetas : List (String × Model)) (key : String) (sims : List ℚ)
    (ma mb : Model) (t0 t1 : Tensor) (alpha : ℚ)
    (hcos : cfg.cosine_mode = false) (hmode : cfg.merge_mode = "weighted_sum")
    (hma : dfind thetas "model_a" = some ma) (ht0 : dfind ma key = some t0)
    (hmb : dfind thetas "model_b" = some mb) (ht1 : dfind mb key = some t1)
    (halpha : dfind bases "alpha" = some alpha) (hlen : t0.length = t1.length) :
    merge_block cfg ext bases thetas key sims =
      .ok (some (List.zipWith (fun x y => (1 - alpha) * x + alpha * y) t0 t1)) ∧
    (alpha = 0 → merge_block cfg ext bases thetas key sims = .ok (some t0)) ∧
    (alpha = 1 → merge_block cfg ext bases thetas key sims = .ok (some t1)) := by
  have hbase : merge_block cfg ext bases thetas key sims =
      .ok (some (tAdd (tScale (1 - alpha) t0) (tScale alpha t1))) := by
    rw [merge_block]
    simp [dget, hma, ht0, hmb, ht1, halpha, hcos, hmode, Bind.bind, Except.bind,
      pure, Except.pure]
  refine ⟨?_, ?_, ?_⟩
  · rw [hbase, tAdd_tScale_zipWith]
  · intro h0
    subst h0
    rw [hbase, tAdd_tScale_zipWith, zipWith_affine_zero t0 t1 hlen]
  · intro h1
    subst h1
    rw [hbase, tAdd_tScale_zipWith, zipWith_affine_one t0 t1 hlen]

/-- Witness for C1, on the spec's own end-to-end example: tensors
`[1, 2]` and `[3, 4]`; the first conjunct at `α = 1/2`, the `α = 0`
endpoint giving model_a's tensor back exactly. -/
theorem C1_weighted_sum_formula_witness :
    merge_block ⟨"weighted_sum", false, 0, "16"⟩ extId [("alpha", 1/2)]
      [("model_a", [("x", [1, 2])]), ("model_b", [("x", [3, 4])])] "x" [] =
      .ok (some (List.zipWith (fun x y => (1 - (1/2 : ℚ)) * x + (1/2 : ℚ) * y)
        [1, 2] [3, 4])) ∧
    merge_block ⟨"weighted_sum", false, 0, "16"⟩ extId [("alpha", 0)]
      [("model_a", [("x", [1, 2])]), ("model_b", [("x", [3, 4])])] "x" [] =
      .ok (some [1, 2]) := by
  constructor
  · exact (C1_weighted_sum_formula ⟨"weighted_sum", false, 0, "16"⟩ extId
      [("alpha", 1/2)] [("model_a", [("x", [1, 2])]), ("model_b", [("x", [3, 4])])]
      "x" [] [("x", [1, 2])] [("x", [3, 4])] [1, 2] [3, 4] (1/2)
      rfl rfl rfl rfl rfl rfl rfl rfl).1
  · exact (C1_weighted_sum_formula ⟨"weighted_sum", false, 0, "16"⟩ extId
      [("alpha", 0)] [("model_a", [("x", [1, 2])]), ("model_b", [("x", [3, 4])])]
      "x" [] [("x", [1, 2])] [("x", [3, 4])] [1, 2] [3, 4] 0
      rfl rfl rfl rfl rfl rfl rfl rfl).2.1 rfl

/-- Claim C10: in cosine mode with merge_mode `weighted_sum`, a key shared
by both models that contains neither `first_stage_model` nor the substring
`model` (for example the scheduler key `alphas_cumprod`) falls through the
cosine branch of `merge_block` to the line that reads `thetas["model_c"]`;
with the two-model set of `weighted_sum` that lookup raises `KeyError`
instead of producing a merged tensor. -/
theorem C10_cosine_fallthrough_error (cfg : Cfg) (ext : ExtOps)
    (bases : List (String × ℚ)) (thetas : List (String × Model)) (key : String)
    (sims : List ℚ) (ma mb : Model) (t0 t1 : Tensor) (alpha : ℚ)
    (hcos : cfg.cosine_mode = true) (hmode : cfg.merge_mode = "weighted_sum")
    (hma : dfind thetas "model_a" = some ma) (ht0 : dfind ma key = some t0)
    (hmb : dfind thetas "model_b" = some mb) (ht1 : dfind mb key = some t1)
    (halpha : dfind bases "alpha" = some alpha)
    (hmc : dfind thetas "model_c" = none)
    (hvae : sContains "first_stage_model" key = false)
    (hmod : sContains "model" key = false) :
    merge_block cfg ext bases thetas key sims = .error ("KeyError: " ++ "model_c") := by
  rw [merge_block]
  simp [dget, hma, ht0, hmb, ht1, halpha, hcos, hmode, hmc, hvae, hmod,
    Bind.bind, Except.bind, pure, Except.pure]

/-- Witness for C10: the concrete scheduler key `alphas_cumprod` raises.  -/
theorem C10_cosine_fallthrough_error_witness :
    merge_block ⟨"weighted_sum", true, 0, "16"⟩ extId [("alpha", 0)]
      [("model_a", [("alphas_cumprod", [1, 2])]), ("model_b", [("alphas_cumprod", [3, 4])])]
      "alphas_cumprod" [] = .error ("KeyError: " ++ "model_c") :=
  C10_cosine_fallthrough_error ⟨"weighted_sum", true, 0, "16"⟩ extId [("alpha", 0)]
    [("model_a", [("alphas_cumprod", [1, 2])]), ("model_b", [("alphas_cumprod", [3, 4])])]
    "alphas_cumprod" [] [("alphas_cumprod", [1, 2])] [("alphas_cumprod", [3, 4])]
    [1, 2] [3, 4] 0 rfl rfl rfl rfl rfl rfl rfl rfl rfl rfl

/-- Claim C4: block-index resolution is a total deterministic function of
the key (`weightIndexOf`, a total Lean function), evaluated in the spec's
priority order: non-backbone keys get the scalar bases unchanged; then
`time_embed` gives 0, the final output projection (`.out.`) gives 24, an
input-block match gives its captured index, the middle block gives 12, and
an output-block match `N` gives `13 + N`. -/
theorem C4_block_index_resolution :
    (∀ (key : String) (weights : List (String × List ℚ)) (bases : List (String × ℚ)),
        sContains "model.diffusion_model." key = false →
        resolveBases key weights bases = .ok bases) ∧
    (∀ key : String, sContains "time_embed" key = true → weightIndexOf key = 0) ∧
    (∀ key : String, sContains "time_embed" key = false →
        sContains ".out." key = true → weightIndexOf key = 24) ∧
    (∀ (key : String) (n : Nat), sContains "time_embed" key = false →
        sContains ".out." key = false →
        searchNum ".input_blocks." key = some n → weightIndexOf key = (n : Int)) ∧
    (∀ key : String, sContains "time_embed" key = false →
        sContains ".out." key = false → searchNum ".input_blocks." key = none →
        (searchNum ".middle_block." key).isSome = true → weightIndexOf key = 12) ∧
    (∀ (key : String) (n : Nat), sContains "time_embed" key = false →
        sContains ".out." key = false → searchNum ".input_blocks." key = none →
        (searchNum ".middle_block." key).isSome = false →
        searchNum ".output_blocks." key = some n →
        weightIndexOf key = 13 + (n : Int)) := by
  refine ⟨?_, ?_, ?_, ?_, ?_, ?_⟩
  · intro key weights bases h
    simp [resolveBases, h]
  · intro key h
    simp [weightIndexOf, h]
  · intro key h1 h2
    simp [weightIndexOf, h1, h2, NUM_TOTAL_BLOCKS, NUM_INPUT_BLOCKS, NUM_MID_BLOCK,
      NUM_OUTPUT_BLOCKS]
  · intro key n h1 h2 h3
    simp [weightIndexOf, h1, h2, h3]
  · intro key h1 h2 h3 h4
    simp [weightIndexOf, h1, h2, h3, h4, NUM_INPUT_BLOCKS]
  · intro key n h1 h2 h3 h4 h5
    simp [weightIndexOf, h1, h2, h3, h4, h5, NUM_INPUT_BLOCKS, NUM_MID_BLOCK]

/-- Witness for C4, at the spec's example keys: `.input_blocks.7.` gives 7,
`.middle_block.0.` gives 12, `.output_blocks.3.` gives 16, `time_embed`
gives 0, the output projection gives 24, and a non-backbone key keeps the
scalar bases. -/
theorem C4_block_index_resolution_witness :
    weightIndexOf "model.diffusion_model.input_blocks.7.1.proj_in.weight" = 7 ∧
    weightIndexOf "model.diffusion_model.middle_block.0.in_layers.0.weight" = 12 ∧
    weightIndexOf "model.diffusion_model.output_blocks.3.0.skip_connection.weight" = 16 ∧
    weightIndexOf "model.diffusion_model.time_embed.0.weight" = 0 ∧
    weightIndexOf "model.diffusion_model.out.2.weight" = 24 ∧
    resolveBases "first_stage_model.encoder.conv_in.weight" [] [("alpha", 1/2)] =
      .ok [("alpha", 1/2)] := by
  refine ⟨?_, ?_, ?_, ?_, ?_, ?_⟩
  · have h := C4_block_index_resolution.2.2.2.1
      "model.diffusion_model.input_blocks.7.1.proj_in.weight" 7 rfl rfl rfl
    simpa using h
  · exact C4_block_index_resolution.2.2.2.2.1
      "model.diffusion_model.middle_block.0.in_layers.0.weight" rfl rfl rfl rfl
  · have h := C4_block_index_resolution.2.2.2.2.2
      "model.diffusion_model.output_blocks.3.0.skip_connection.weight" 3 rfl rfl rfl rfl rfl
    simpa using h
  · exact C4_block_index_resolution.2.1
      "model.diffusion_model.time_embed.0.weight" rfl
  · exact C4_block_index_resolution.2.2.1
      "model.diffusion_model.out.2.weight" rfl rfl
  · exact C4_block_index_resolution.1
      "first_stage_model.encoder.conv_in.weight" [] [("alpha", 1/2)] rfl

/-- Claim C3 (amended): in cosine mode with `add_difference`, Stage 0
replaces every model_b key containing the backbone marker (the substring
`model`) and present in model_c by `model_b - model_c`; a marked key that
model_c **lacks** is replaced by the zero tensor (not left equal to itself
minus zero); afterwards `model_c` is deleted from the model set. -/
theorem C3_stage0_subtract (thetas : List (String × Model)) (mb mc : Model)
    (k : String) (t : Tensor)
    (hmb : dfind thetas "model_b" = some mb)
    (hmc : dfind thetas "model_c" = some mc)
    (ht : dfind mb k = some t) (hk : sContains "model" k = true) :
    stage0 thetas =
      .ok (ddel (dinsert thetas "model_b" (stage0_model_b mb mc)) "model_c") ∧
    dfind (ddel (dinsert thetas "model_b" (stage0_model_b mb mc)) "model_c")
      "model_c" = none ∧
    dfind (stage0_model_b mb mc) k =
      some (match dfind mc k with
        | some t2 => tSub t t2
        | none => tZerosLike t) := by
  refine ⟨?_, dfind_ddel_self _ _, ?_⟩
  · rw [stage0]
    simp [dget, hmb, hmc, Bind.bind, Except.bind, pure, Except.pure]
  · have hf : ∀ p : String × Tensor,
        ((fun p : String × Tensor =>
          if sContains "model" p.1 then
            match dfind mc p.1 with
            | some t2 => (p.1, tSub p.2 t2)
            | none => (p.1, tZerosLike p.2)
          else p) p).1 = p.1 := by
      intro p
      by_cases hp : sContains "model" p.1
      · simp only [hp, if_true]
        cases dfind mc p.1 <;> simp
      · simp [hp]
    have hmap := dfind_map_keypres mb _ hf k t ht
    rw [stage0_model_b, hmap]
    simp only [hk, if_true]
    cases dfind mc k <;> simp

/-- Witness for C3: a marked model_b key that model_c lacks comes out as
the zero tensor. -/
theorem C3_stage0_subtract_witness :
    dfind (stage0_model_b [("model.x", [5])] [("model.y", [2])]) "model.x" =
      some (tZerosLike [5]) := by
  have h := C3_stage0_subtract
    [("model_b", [("model.x", [5])]), ("model_c", [("model.y", [2])])]
    [("model.x", [5])] [("model.y", [2])] "model.x" [5] rfl rfl rfl rfl
  exact h.2.2

/-- Counterexample for C3 as stated: for the marked key `model.x` with
tensor `[5]` absent from model_c, Stage 0 stores the zero tensor `[0]`,
not `[5] - 0 = [5]` as the claim asserts. -/
theorem C3_counterexample :
    dfind (stage0_model_b [("model.x", [5])] []) "model.x" = some [0] ∧
    ¬ dfind (stage0_model_b [("model.x", [5])] []) "model.x" = some [5] := by
  have h0 : dfind (stage0_model_b [("model.x", [5])] []) "model.x" = some [0] := rfl
  refine ⟨h0, ?_⟩
  intro h
  rw [h0] at h
  have h5 : ([0] : Tensor) = [5] := Option.some.inj h
  have : (0 : ℚ) = 5 := by
    injection h5 with h1 h2
  norm_num at this

/-- Claim C6 (amended): membership in the similarity sample set actually
used for normalisation — NaN values (modelled as `none`) are dropped,
values below the 1st percentile of the NaN-filtered sample are removed,
and values above the 99th percentile **of the already lower-trimmed
sample** (not of the original sample) are removed; percentiles use
midpoint interpolation. -/
theorem C6_similarity_trim (raw : List (Option ℚ)) (v : ℚ) :
    v ∈ simsFromRaw raw ↔
      some v ∈ raw ∧ npPercentile (raw.filterMap id) 1 ≤ v ∧
        v ≤ npPercentile (lowerTrimmed (raw.filterMap id)) 99 := by
  simp [simsFromRaw, trimSims, lowerTrimmed, List.mem_filter, List.mem_filterMap,
    not_lt, and_assoc]
  intro _
  exact and_comm

/-- Counterexample for C6 as stated: on the sample `[0, 100]` the code's
trimming keeps `[100]` (its upper cut uses the 99th percentile of the
already lower-trimmed sample, `100`), while trimming against the original
sample's percentiles (both `50`) leaves the empty set; so the used set is
not the one the claim describes. -/
theorem C6_counterexample :
    trimSims [0, 100] = [100] ∧ specTrimSims [0, 100] = [] ∧
      trimSims [0, 100] ≠ specTrimSims [0, 100] := by
  have hcode : trimSims [0, 100] = [100] := by
    rw [trimSims, lowerTrimmed_pair, npPercentile_single_99]
    norm_num [List.filter]
  have hspec : specTrimSims [0, 100] = [] := by
    rw [specTrimSims, npPercentile_pair_1, npPercentile_pair_99]
    norm_num [List.filter]
  refine ⟨hcode, hspec, ?_⟩
  rw [hcode, hspec]
  simp

/-- Claim C8: the key-compatibility fixer (`fix_nai_keys` then `fix_clip`)
is idempotent: applying `fix_model` twice yields the same mapping as
applying it once, for every key-to-tensor mapping. -/
theorem C8_fixer_idempotent (m : Model) : fix_model (fix_model m) = fix_model m := by
  unfold fix_model
  have hnon : ∀ x ∈ keysOf (fix_nai_keys m), isNaiKey x = false := fix_nai_keys_nonNai m
  by_cases h : (dfind (fix_nai_keys m) KEY_POSITION_IDS).isSome = true
  · have hclip : fix_clip (fix_nai_keys m) =
        dinsert (fix_nai_keys m) KEY_POSITION_IDS canonicalPositionIds := by
      simp [fix_clip, h]
    have hkeys : keysOf (fix_clip (fix_nai_keys m)) = keysOf (fix_nai_keys m) := by
      rw [hclip]
      exact keys_dinsert_of_mem _ _ _ h
    have hnon2 : ∀ x ∈ keysOf (fix_clip (fix_nai_keys m)), isNaiKey x = false := by
      rw [hkeys]; exact hnon
    rw [fix_nai_keys_id _ hnon2, hclip]
    have h2 : (dfind (dinsert (fix_nai_keys m) KEY_POSITION_IDS canonicalPositionIds)
        KEY_POSITION_IDS).isSome = true := by
      rw [dfind_dinsert_self]; rfl
    simp [fix_clip, h2, dinsert_dinsert_same]
  · have hclip : fix_clip (fix_nai_keys m) = fix_nai_keys m := by
      simp [fix_clip, h]
    rw [hclip, fix_nai_keys_id _ hnon, hclip]

/-! ## Stage-2 fold lemmas -/

/-- If `merge_key` skips `key`, a successful Stage-2 fold never adds `key`
to the accumulator. -/
theorem stage2_fold_skip (cfg : Cfg) (ext : ExtOps) (key : String)
    (thetas : List (String × Model)) (weights : List (String × List ℚ))
    (bases : List (String × ℚ)) (best : Bool) (sims : List ℚ)
    (hk : merge_key cfg ext key thetas weights bases best sims = .ok none) :
    ∀ (ks : List String) (acc m' : Model),
      ks.foldlM (stage2_step cfg ext thetas weights bases best sims) acc = .ok m' →
      dfind acc key = none → dfind m' key = none := by
  intro ks
  induction ks with
  | nil =>
    intro acc m' h hacc
    simp only [List.foldlM, pure, Except.pure] at h
    injection h with h
    rw [← h]
    exact hacc
  | cons k ks ih =>
    intro acc m' h hacc
    rw [List.foldlM_cons] at h
    cases hs : stage2_step cfg ext thetas weights bases best sims acc k with
    | error e => rw [hs] at h; simp [Bind.bind, Except.bind] at h
    | ok acc' =>
      rw [hs] at h
      simp only [Bind.bind, Except.bind] at h
      refine ih acc' m' h ?_
      rw [stage2_step] at hs
      cases hmk : merge_key cfg ext k thetas weights bases best sims with
      | error e => rw [hmk] at hs; simp [Bind.bind, Except.bind] at hs
      | ok r =>
        rw [hmk] at hs
        simp only [Bind.bind, Except.bind] at hs
        cases r with
        | none =>
          simp only [pure, Except.pure] at hs
          injection hs with hs
          rw [← hs]
          exact hacc
        | some p =>
          simp only [pure, Except.pure] at hs
          injection hs with hs
          rw [← hs]
          by_cases hkk : k = key
          · subst hkk
            rw [hmk] at hk
            injection hk with hk
            cases hk
          · exact (dfind_dinsert_ne acc k key p.2 (Ne.symm hkk)).trans hacc

/-- A Stage-2 step on a different key does not change a key's lookup. -/
theorem stage2_step_lookup_ne (cfg : Cfg) (ext : ExtOps)
    (thetas : List (String × Model)) (weights : List (String × List ℚ))
    (bases : List (String × ℚ)) (best : Bool) (sims : List ℚ)
    (acc acc' : Model) (k key : String)
    (hs : stage2_step cfg ext thetas weights bases best sims acc k = .ok acc')
    (hne : k ≠ key) : dfind acc' key = dfind acc key := by
  rw [stage2_step] at hs
  cases hmk : merge_key cfg ext k thetas weights bases best sims with
  | error e => rw [hmk] at hs; simp [Bind.bind, Except.bind] at hs
  | ok r =>
    rw [hmk] at hs
    simp only [Bind.bind, Except.bind] at hs
    cases r with
    | none =>
      simp only [pure, Except.pure] at hs
      injection hs with hs
      rw [← hs]
    | some p =>
      simp only [pure, Except.pure] at hs
      injection hs with hs
      rw [← hs]
      exact dfind_dinsert_ne acc k key p.2 (Ne.symm hne)

/-- A successful Stage-2 fold over keys not containing `key` leaves `key`'s
lookup unchanged. -/
theorem stage2_fold_other (cfg : Cfg) (ext : ExtOps)
    (thetas : List (String × Model)) (weights : List (String × List ℚ))
    (bases : List (String × ℚ)) (best : Bool) (sims : List ℚ) (key : String) :
    ∀ (ks : List String) (acc m' : Model),
      ks.foldlM (stage2_step cfg ext thetas weights bases best sims) acc = .ok m' →
      key ∉ ks → dfind m' key = dfind acc key := by
  intro ks
  induction ks with
  | nil =>
    intro acc m' h _
    simp only [List.foldlM, pure, Except.pure] at h
    injection h with h
    rw [← h]
  | cons k ks ih =>
    intro acc m' h hnot
    rw [List.foldlM_cons] at h
    cases hs : stage2_step cfg ext thetas weights bases best sims acc k with
    | error e => rw [hs] at h; simp [Bind.bind, Except.bind] at h
    | ok acc' =>
      rw [hs] at h
      simp only [Bind.bind, Except.bind] at h
      have h1 := ih acc' m' h (fun hm => hnot (List.mem_cons_of_mem k hm))
      rw [h1]
      exact stage2_step_lookup_ne cfg ext thetas weights bases best sims acc acc' k key
        hs (fun he => hnot (he ▸ List.mem_cons_self k ks))

/-- If `merge_key` returns a pair for `key`, a successful Stage-2 fold over
duplicate-free keys containing `key` stores that pair's tensor. -/
theorem stage2_fold_keeps (cfg : Cfg) (ext : ExtOps)
    (thetas : List (String × Model)) (weights : List (String × List ℚ))
    (bases : List (String × ℚ)) (best : Bool) (sims : List ℚ)
    (key : String) (p : String × Tensor)
    (hk : merge_key cfg ext key thetas weights bases best sims = .ok (some p)) :
    ∀ (ks : List String) (acc m' : Model),
      ks.foldlM (stage2_step cfg ext thetas weights bases best sims) acc = .ok m' →
      key ∈ ks → ks.Nodup → dfind m' key = some p.2 := by
  intro ks
  induction ks with
  | nil => intro acc m' _ hmem _; simp at hmem
  | cons k ks ih =>
    intro acc m' h hmem hnd
    rw [List.foldlM_cons] at h
    cases hs : stage2_step cfg ext thetas weights bases best sims acc k with
    | error e => rw [hs] at h; simp [Bind.bind, Except.bind] at h
    | ok acc' =>
      rw [hs] at h
      simp only [Bind.bind, Except.bind] at h
      by_cases hkk : k = key
      · subst hkk
        have hacc' : acc' = dinsert acc k p.2 := by
          rw [stage2_step, hk] at hs
          simp only [Bind.bind, Except.bind, pure, Except.pure] at hs
          injection hs with hs
          exact hs.symm
        have hnot : k ∉ ks := (List.nodup_cons.mp hnd).1
        rw [stage2_fold_other cfg ext thetas weights bases best sims k ks acc' m' h hnot,
          hacc']
        exact dfind_dinsert_self acc k p.2
      · have hmem' : key ∈ ks := by
          rcases List.mem_cons.mp hmem with h' | h'
          · exact absurd h'.symm hkk
          · exact h'
        exact ih acc' m' h hmem' (List.nodup_cons.mp hnd).2

/-- A Stage-3 step for an entry with a different key does not change a
key's lookup. -/
theorem stage3_step_ne (cfg : Cfg) (ext : ExtOps) (best : Bool) (acc : Model)
    (p : String × Tensor) (k : String) (hne : p.1 ≠ k) :
    dfind (stage3_step cfg ext best acc p) k = dfind acc k := by
  have hd1 : ∀ (m : Model) (v : Tensor), dfind (dinsert m p.1 v) k = dfind m k :=
    fun m v => dfind_dinsert_ne m p.1 k v (Ne.symm hne)
  rw [stage3_step]
  by_cases hc : sContains "model" p.1 = true ∧ (dfind acc p.1).isNone = true
  · rw [if_pos hc]
    by_cases h1 : sContains KEY_POSITION_IDS p.1 = true ∧ cfg.skip_position_ids = 1
    · rw [if_pos h1]
    · rw [if_neg h1]
      by_cases h2 : sContains KEY_POSITION_IDS p.1 = true ∧ cfg.skip_position_ids = 2
      · rw [if_pos h2]
        by_cases hh : halfCond cfg best = true
        · simp only [hh, if_true, dfind_dinsert_self, hd1]
        · simp only [hh, if_false, hd1, Bool.false_eq_true]
      · rw [if_neg h2]
        by_cases hh : halfCond cfg best = true
        · simp only [hh, if_true, dfind_dinsert_self, hd1]
        · simp only [hh, if_false, hd1, Bool.false_eq_true]
  · rw [if_neg hc]

/-- Stage 3 never overwrites a key already present in the output. -/
theorem stage3_fold_preserve_some (cfg : Cfg) (ext : ExtOps) (best : Bool)
    (k : String) (v : Tensor) :
    ∀ (entries : List (String × Tensor)) (acc : Model),
      dfind acc k = some v →
      dfind (entries.foldl (stage3_step cfg ext best) acc) k = some v := by
  intro entries
  induction entries with
  | nil => intro acc h; exact h
  | cons p rest ih =>
    intro acc h
    rw [List.foldl_cons]
    refine ih (stage3_step cfg ext best acc p) ?_
    by_cases hpk : p.1 = k
    · rw [stage3_step]
      have hcond : ¬ (sContains "model" p.1 = true ∧ (dfind acc p.1).isNone = true) := by
        intro hc
        rw [hpk, h] at hc
        simp at hc
      rw [if_neg hcond]
      exact h
    · rw [stage3_step_ne cfg ext best acc p k hpk]
      exact h

/-- A Stage-3 fold over entries whose keys avoid `k` leaves `k`'s lookup
unchanged. -/
theorem stage3_fold_untouched (cfg : Cfg) (ext : ExtOps) (best : Bool) (k : String) :
    ∀ (entries : List (String × Tensor)) (acc : Model),
      k ∉ entries.map Prod.fst →
      dfind (entries.foldl (stage3_step cfg ext best) acc) k = dfind acc k := by
  intro entries
  induction entries with
  | nil => intro acc _; rfl
  | cons p rest ih =>
    intro acc hnot
    rw [List.foldl_cons]
    have hne : p.1 ≠ k := by
      intro he
      exact hnot (by simp [he.symm])
    rw [ih (stage3_step cfg ext best acc p) (fun hm => hnot (by simp [hm]))]
    exact stage3_step_ne cfg ext best acc p k hne

/-- A successful Stage-3 fold adds a duplicate-free model_b entry that is
not yet in the output and is not a position-ids key exactly when its key
contains `"model"`, storing model_b's tensor (narrowed when `halfCond`). -/
theorem stage3_fold_adds (cfg : Cfg) (ext : ExtOps) (best : Bool)
    (k : String) (t : Tensor) (hpids : sContains KEY_POSITION_IDS k = false) :
    ∀ (entries : List (String × Tensor)) (acc : Model),
      (k, t) ∈ entries → (entries.map Prod.fst).Nodup → dfind acc k = none →
      dfind (entries.foldl (stage3_step cfg ext best) acc) k =
        (if sContains "model" k = true then
          some (if halfCond cfg best = true then ext.half t else t)
        else none) := by
  intro entries
  induction entries with
  | nil => intro acc hmem _ _; simp at hmem
  | cons p rest ih =>
    intro acc hmem hnd hnone
    rw [List.map_cons, List.nodup_cons] at hnd
    rw [List.foldl_cons]
    rcases List.mem_cons.mp hmem with hm | hm
    · have hp : p = (k, t) := hm.symm
      subst hp
      have hknot : k ∉ rest.map Prod.fst := hnd.1
      rw [stage3_fold_untouched cfg ext best k rest _ hknot]
      rw [stage3_step]
      by_cases hmod : sContains "model" k = true
      · have hcond : sContains "model" (k, t).1 = true ∧
            (dfind acc (k, t).1).isNone = true := ⟨hmod, by rw [hnone]; rfl⟩
        rw [if_pos hcond]
        have h1 : ¬ (sContains KEY_POSITION_IDS (k, t).1 = true ∧
            cfg.skip_position_ids = 1) := by
          simp [hpids]
        have h2 : ¬ (sContains KEY_POSITION_IDS (k, t).1 = true ∧
            cfg.skip_position_ids = 2) := by
          simp [hpids]
        rw [if_neg h1, if_neg h2]
        by_cases hh : halfCond cfg best = true
        · simp [hh, dfind_dinsert_self, hmod]
        · simp [hh, dfind_dinsert_self, hmod]
      · have hcond : ¬ (sContains "model" (k, t).1 = true ∧
            (dfind acc (k, t).1).isNone = true) := by
          intro hc
          exact hmod hc.1
        rw [if_neg hcond]
        rw [hnone, if_neg (by simpa using hmod)]
    · have hne : p.1 ≠ k := by
        intro he
        exact hnd.1 (he ▸ List.mem_map_of_mem Prod.fst hm)
      refine (ih (stage3_step cfg ext best acc p) hm hnd.2 ?_)
      rw [stage3_step_ne cfg ext best acc p k hne]
      exact hnone

/-! ## `fix_model` lookup lemmas -/

/-- Folding `fix_key` leaves the lookup of a key that neither bears an
alternate prefix nor a canonical replacement prefix unchanged. -/
theorem foldl_fix_key_lookup (k : String) (hnai : isNaiKey k = false)
    (htgt : ∀ pr ∈ NAI_KEYS, sStartsWith pr.2 k = false) :
    ∀ (ks : List String) (acc : Model),
      dfind (ks.foldl fix_key acc) k = dfind acc k := by
  intro ks
  induction ks with
  | nil => intro acc; rfl
  | cons k0 ks ih =>
    intro acc
    rw [List.foldl_cons, ih]
    rcases fix_key_cases acc k0 with ⟨hc, _⟩ | ⟨pr, hpr, v, hs, _, hc⟩
    · rw [hc]
    · rw [hc]
      have hk0 : k0 ≠ k := by
        intro he
        subst he
        have hn : isNaiKey k0 = true := by
          rw [isNaiKey, List.any_eq_true]
          exact ⟨pr, hpr, hs⟩
        rw [hnai] at hn
        exact Bool.false_ne_true hn
      have hnewk : sReplace k0 pr.1 pr.2 ≠ k := by
        intro he
        have hsw := sReplace_startsWith k0 pr.1 pr.2 (nai_src_ne_nil pr hpr) hs
        rw [he, htgt pr hpr] at hsw
        exact Bool.false_ne_true hsw
      rw [dfind_ddel_ne _ _ _ (Ne.symm hk0), dfind_dinsert_ne _ _ _ _ (Ne.symm hnewk)]

/-- Folding `fix_key` keeps a non-alternate-prefixed key present. -/
theorem foldl_fix_key_presence (k : String) (hnai : isNaiKey k = false) :
    ∀ (ks : List String) (acc : Model),
      (dfind acc k).isSome = true →
      (dfind (ks.foldl fix_key acc) k).isSome = true := by
  intro ks
  induction ks with
  | nil => intro acc h; exact h
  | cons k0 ks ih =>
    intro acc h
    rw [List.foldl_cons]
    refine ih (fix_key acc k0) ?_
    rcases fix_key_cases acc k0 with ⟨hc, _⟩ | ⟨pr, hpr, v, hs, _, hc⟩
    · rw [hc]; exact h
    · rw [hc]
      have hk0 : k0 ≠ k := by
        intro he
        subst he
        have hn : isNaiKey k0 = true := by
          rw [isNaiKey, List.any_eq_true]
          exact ⟨pr, hpr, hs⟩
        rw [hnai] at hn
        exact Bool.false_ne_true hn
      rw [dfind_ddel_ne _ _ _ (Ne.symm hk0)]
      by_cases hnewk : sReplace k0 pr.1 pr.2 = k
      · rw [hnewk, dfind_dinsert_self]; rfl
      · rw [dfind_dinsert_ne _ _ _ _ (Ne.symm hnewk)]
        exact h

/-- If the canonical position-ids key is present in the assembled mapping,
the saved mapping holds the freshly regenerated canonical tensor. -/
theorem fix_model_position (m : Model)
    (hsome : (dfind m KEY_POSITION_IDS).isSome = true) :
    dfind (fix_model m) KEY_POSITION_IDS = some canonicalPositionIds := by
  rw [fix_model, fix_nai_keys]
  have h1 : (dfind ((m.map Prod.fst).foldl fix_key m) KEY_POSITION_IDS).isSome = true :=
    foldl_fix_key_presence KEY_POSITION_IDS (by decide) (m.map Prod.fst) m hsome
  rw [fix_clip, if_pos h1]
  exact dfind_dinsert_self _ _ _

/-- `fix_model` does not change the lookup of a key that bears no
alternate prefix, no canonical replacement prefix, and is not the
canonical position-ids key. -/
theorem fix_model_lookup_ne (m : Model) (k : String)
    (hnai : isNaiKey k = false)
    (htgt : ∀ pr ∈ NAI_KEYS, sStartsWith pr.2 k = false)
    (hne : k ≠ KEY_POSITION_IDS) :
    dfind (fix_model m) k = dfind m k := by
  rw [fix_model, fix_nai_keys]
  have h1 := foldl_fix_key_lookup k hnai htgt (m.map Prod.fst) m
  rw [fix_clip]
  by_cases h2 : (dfind ((m.map Prod.fst).foldl fix_key m) KEY_POSITION_IDS).isSome = true
  · rw [if_pos h2, dfind_dinsert_ne _ _ _ _ hne]
    exact h1
  · rw [if_neg h2]
    exact h1

/-- Stage 0 does not change the `model_a` entry of the model set. -/
theorem stage0_ok_model_a (thetas0 th' : List (String × Model))
    (h : stage0 thetas0 = .ok th') :
    dfind th' "model_a" = dfind thetas0 "model_a" := by
  rw [stage0] at h
  cases hb : dget thetas0 "model_b" with
  | error e => rw [hb] at h; simp [Bind.bind, Except.bind] at h
  | ok mb =>
    rw [hb] at h
    simp only [Bind.bind, Except.bind] at h
    cases hc : dget thetas0 "model_c" with
    | error e => rw [hc] at h; simp at h
    | ok mc =>
      rw [hc] at h
      simp only [pure, Except.pure] at h
      injection h with h
      rw [← h]
      rw [dfind_ddel_ne _ _ _ (by decide), dfind_dinsert_ne _ _ _ _ (by decide)]

/-- Inversion for a successful `Except` bind. -/
theorem except_bind_ok {α β : Type} (x : Except String α) (f : α → Except String β)
    (b : β) (h : (x >>= f) = .ok b) : ∃ a, x = .ok a ∧ f a = .ok b := by
  cases x with
  | error e => simp [Bind.bind, Except.bind] at h
  | ok a =>
    refine ⟨a, rfl, ?_⟩
    simpa [Bind.bind, Except.bind] using h

/-- First-match lookup produces a list member. -/
theorem dfind_mem {α : Type} (d : List (String × α)) (k : String) (v : α)
    (h : dfind d k = some v) : (k, v) ∈ d := by
  induction d with
  | nil => simp [dfind] at h
  | cons p rest ih =>
    obtain ⟨k0, v0⟩ := p
    by_cases h0 : k0 = k
    · subst h0
      simp [dfind] at h
      subst h
      exact List.mem_cons_self _ _
    · simp [dfind, h0] at h
      exact List.mem_cons_of_mem _ (ih h)

/-- Claim C5 (amended): for every key that is not special-cased by the
position-ids tri-state policy (here: does not contain the canonical
position-ids key), if the key is absent from at least one loaded model,
`merge_key` returns Python `None` — no error — and a successful Stage-2
pass leaves the key out of the output mapping. -/
theorem C5_missing_key_skip (cfg : Cfg) (ext : ExtOps) (key : String)
    (thetas : List (String × Model)) (weights : List (String × List ℚ))
    (bases : List (String × ℚ)) (best : Bool) (sims : List ℚ)
    (hpids : sContains KEY_POSITION_IDS key = false)
    (hmiss : thetas.any (fun p => (dfind p.2 key).isNone) = true) :
    merge_key cfg ext key thetas weights bases best sims = .ok none ∧
    ∀ (ks : List String) (m' : Model),
      stage2 cfg ext ks thetas weights bases best sims = .ok m' →
      dfind m' key = none := by
  have hmk : merge_key cfg ext key thetas weights bases best sims = .ok none := by
    rw [merge_key]
    simp [hpids, hmiss, Bind.bind, Except.bind, pure, Except.pure]
  refine ⟨hmk, ?_⟩
  intro ks m' h
  exact stage2_fold_skip cfg ext key thetas weights bases best sims hmk ks [] m' h rfl

/-- Witness for C5: the key `model.diffusion_model.foo` is in model_a but
not model_b; the per-key merge yields `None` and Stage 2 omits it. -/
theorem C5_missing_key_skip_witness :
    merge_key ⟨"weighted_sum", false, 0, "16"⟩ extId "model.diffusion_model.foo"
      [("model_a", [("model.diffusion_model.foo", [1])]), ("model_b", [])]
      [] [] false [] = .ok none ∧
    dfind ([] : Model) "model.diffusion_model.foo" = none := by
  have h := C5_missing_key_skip ⟨"weighted_sum", false, 0, "16"⟩ extId
    "model.diffusion_model.foo"
    [("model_a", [("model.diffusion_model.foo", [1])]), ("model_b", [])]
    [] [] false [] rfl rfl
  exact ⟨h.1, h.2 [] [] rfl⟩

/-- Counterexample for C5 as stated: with `skip_position_ids = 1`, the
canonical position-ids key present in model_a but **absent from model_b**
is not skipped — the per-key merge produces model_a's tensor and Stage 2
stores it. -/
theorem C5_counterexample :
    dfind ([] : Model) KEY_POSITION_IDS = none ∧
    merge_key ⟨"weighted_sum", false, 1, "16"⟩ extId KEY_POSITION_IDS
      [("model_a", [(KEY_POSITION_IDS, [5])]), ("model_b", [])] [] [] false [] =
      .ok (some (KEY_POSITION_IDS, [5])) ∧
    stage2 ⟨"weighted_sum", false, 1, "16"⟩ extId [KEY_POSITION_IDS]
      [("model_a", [(KEY_POSITION_IDS, [5])]), ("model_b", [])] [] [] false [] =
      .ok [(KEY_POSITION_IDS, [5])] := by
  refine ⟨rfl, rfl, rfl⟩

/-- Claim C9 helper: the state produced by `remove_previous_ckpt it` in the
normal lifecycle. -/
def rpcPost (it : Nat) (st : MState) : MState :=
  create_model_out_name it
    { create_model_out_name (it - 1) st with
      files := st.files.erase (mkOutFile st.suffix st.parent (it - 1)) }

/-- Claim C9: for `it > 1`, in the normal lifecycle (the current output
file is the iteration-`it-1` working file), `remove_previous_ckpt it`
deletes the iteration-`it-1` working file whenever it exists, recomputes
the output name for iteration `it`, and — if at most the previous working
file was on disk — after saving, the only working file on disk is the
iteration-`it` one. -/
theorem C9_remove_previous_ckpt_lifecycle (it : Nat) (st : MState)
    (hit : 1 < it)
    (hout : st.output_file = mkOutFile st.suffix st.parent (it - 1)) :
    remove_previous_ckpt it st = .ok (rpcPost it st) ∧
    mkOutFile st.suffix st.parent (it - 1) ∉ (rpcPost it st).files ∧
    (rpcPost it st).output_file = mkOutFile st.suffix st.parent it ∧
    ((∀ f ∈ st.files, (∃ j, f = mkOutFile st.suffix st.parent j) →
        f = mkOutFile st.suffix st.parent (it - 1)) →
      ∀ f ∈ (saveCkpt (rpcPost it st)).files,
        (∃ j, f = mkOutFile st.suffix st.parent j) →
        f = mkOutFile st.suffix st.parent it) := by
  have hpost_files : (rpcPost it st).files =
      st.files.erase (mkOutFile st.suffix st.parent (it - 1)) := rfl
  have hpost_out : (rpcPost it st).output_file = mkOutFile st.suffix st.parent it := rfl
  refine ⟨?_, ?_, hpost_out, ?_⟩
  · by_cases hmem : st.output_file ∈ st.files
    · rw [remove_previous_ckpt]
      rw [if_pos ⟨hit, hmem⟩]
      have hmem2 : (create_model_out_name (it - 1) st).output_file ∈
          (create_model_out_name (it - 1) st).files := by
        show mkOutFile st.suffix st.parent (it - 1) ∈ st.files
        rw [← hout]
        exact hmem
      rw [if_pos hmem2]
      rfl
    · rw [remove_previous_ckpt]
      rw [if_neg (fun hc => hmem hc.2)]
      show Except.ok (create_model_out_name it st) = Except.ok (rpcPost it st)
      rw [rpcPost, Finset.erase_eq_of_not_mem (by rw [← hout]; exact hmem)]
      rfl
  · rw [hpost_files]
    exact Finset.not_mem_erase _ _
  · intro hpre f hf hex
    have hf' : f = (rpcPost it st).output_file ∨ f ∈ (rpcPost it st).files := by
      simpa [saveCkpt] using hf
    rcases hf' with hf' | hf'
    · rw [hf', hpost_out]
    · rw [hpost_files] at hf'
      have h2 := Finset.mem_erase.mp hf'
      exact absurd (hpre f h2.2 hex) h2.1

/-- Claim C2 (amended): in a merge with `skip_position_ids = 1` where the
canonical position-ids key is present in model_a, the per-key merge does
emit model_a's tensor (ignoring model_b and the formula), but the final
`fix_model` pass overwrites the canonical key, so the tensor stored in the
saved output is the freshly regenerated canonical sequence `[0..76]` — it
equals model_a's tensor only when that tensor is already canonical. -/
theorem C2_position_ids_canonicalized (cfg : Cfg) (ext : ExtOps)
    (thetas0 : List (String × Model)) (weights : List (String × List ℚ))
    (bases : List (String × ℚ)) (best : Bool) (out ma0 : Model) (t : Tensor)
    (hskip : cfg.skip_position_ids = 1)
    (hma : dfind thetas0 "model_a" = some ma0)
    (ht : dfind ma0 KEY_POSITION_IDS = some t)
    (hnd : (ma0.map Prod.fst).Nodup)
    (hmerge : mergeModels cfg ext thetas0 weights bases best = .ok out) :
    dfind out KEY_POSITION_IDS = some canonicalPositionIds := by
  rw [mergeModels] at hmerge
  obtain ⟨thetas, h0, hmerge⟩ := except_bind_ok _ _ _ hmerge
  obtain ⟨ma, h1, hmerge⟩ := except_bind_ok _ _ _ hmerge
  obtain ⟨mb, h2, hmerge⟩ := except_bind_ok _ _ _ hmerge
  obtain ⟨m2, h3, hmerge⟩ := except_bind_ok _ _ _ hmerge
  simp only [pure, Except.pure] at hmerge
  injection hmerge with hout
  have hfind_a : dfind thetas "model_a" = some ma0 := by
    by_cases hc : cfg.cosine_mode = true ∧ cfg.merge_mode = "add_difference"
    · rw [if_pos hc] at h0
      rw [stage0_ok_model_a thetas0 thetas h0]
      exact hma
    · rw [if_neg hc] at h0
      simp only [pure, Except.pure] at h0
      injection h0 with h0
      rw [← h0]
      exact hma
  have hma_eq : ma = ma0 := by
    simp [dget, hfind_a] at h1
    exact h1.symm
  subst hma_eq
  have hself : sContains KEY_POSITION_IDS KEY_POSITION_IDS = true := by rfl
  have hmkp : ∀ sims : List ℚ, ∃ p : String × Tensor,
      merge_key cfg ext KEY_POSITION_IDS thetas weights bases best sims =
        .ok (some p) := by
    intro sims
    by_cases hhc : halfCond cfg best = true
    · refine ⟨(KEY_POSITION_IDS, ext.half t), ?_⟩
      rw [merge_key]
      simp [hself, hskip, dget, hfind_a, ht, hhc, Bind.bind, Except.bind, pure,
        Except.pure]
    · refine ⟨(KEY_POSITION_IDS, t), ?_⟩
      rw [merge_key]
      simp [hself, hskip, dget, hfind_a, ht, hhc, Bind.bind, Except.bind, pure,
        Except.pure]
  obtain ⟨p, hp⟩ := hmkp (if cfg.cosine_mode then trimSims (stage1 ext ma mb) else [])
  have hm2 : dfind m2 KEY_POSITION_IDS = some p.2 := by
    rw [stage2] at h3
    exact stage2_fold_keeps cfg ext thetas weights bases best _ KEY_POSITION_IDS p hp
      (ma.map Prod.fst) [] m2 h3 (mem_keys_of_dfind ma KEY_POSITION_IDS t ht) hnd
  have hst3 : dfind (stage3 cfg ext mb m2 best) KEY_POSITION_IDS = some p.2 := by
    rw [stage3]
    exact stage3_fold_preserve_some cfg ext best KEY_POSITION_IDS p.2 mb m2 hm2
  rw [← hout]
  apply fix_model_position
  rw [hst3]
  rfl

/-- Witness for C2 (amended): a concrete two-model merge with
`skip_position_ids = 1`; the saved output holds the canonical tensor. -/
theorem C2_position_ids_canonicalized_witness :
    dfind [(KEY_POSITION_IDS, canonicalPositionIds)] KEY_POSITION_IDS =
      some canonicalPositionIds :=
  C2_position_ids_canonicalized ⟨"weighted_sum", false, 1, "16"⟩ extId
    [("model_a", [(KEY_POSITION_IDS, [5])]), ("model_b", [(KEY_POSITION_IDS, [5])])]
    [] [("alpha", 0)] false [(KEY_POSITION_IDS, canonicalPositionIds)]
    [(KEY_POSITION_IDS, [5])] [5] rfl rfl rfl (by simp) rfl

/-- Counterexample for C2 as stated: model_a stores `[5]` under the
canonical key, `skip_position_ids = 1`, yet the saved output holds the
regenerated canonical sequence, not model_a's tensor unchanged. -/
theorem C2_counterexample :
    mergeModels ⟨"weighted_sum", false, 1, "16"⟩ extId
      [("model_a", [(KEY_POSITION_IDS, [5])]), ("model_b", [(KEY_POSITION_IDS, [5])])]
      [] [("alpha", 0)] false = .ok [(KEY_POSITION_IDS, canonicalPositionIds)] ∧
    canonicalPositionIds ≠ [5] := by
  refine ⟨rfl, ?_⟩
  intro h
  have h77 : canonicalPositionIds.length = 77 := by rfl
  rw [h] at h77
  simp at h77

/-- Claim C7 (amended): after Stage 3, a model_b entry whose key was not
already in the output mapping (and is not position-ids special-cased, not
alternate-prefixed, and not a canonical-replacement-prefixed key that the
fixer could collide with) is present in the saved output iff its key
contains the substring `"model"` — the code's backbone test, which is
weaker than containing `model.diffusion_model.` — and when added its
tensor is model_b's tensor verbatim up to half-precision narrowing. -/
theorem C7_stage3_recovery (cfg : Cfg) (ext : ExtOps) (best : Bool)
    (mb m2 : Model) (k : String) (t : Tensor)
    (hmem : dfind mb k = some t)
    (hnd : (mb.map Prod.fst).Nodup)
    (h2 : dfind m2 k = none)
    (hpids : sContains KEY_POSITION_IDS k = false)
    (hnai : isNaiKey k = false)
    (htgt : ∀ pr ∈ NAI_KEYS, sStartsWith pr.2 k = false) :
    dfind (fix_model (stage3 cfg ext mb m2 best)) k =
      (if sContains "model" k = true then
        some (if halfCond cfg best = true then ext.half t else t)
      else none) := by
  have hneKP : k ≠ KEY_POSITION_IDS := by
    intro he
    have hself : sContains KEY_POSITION_IDS KEY_POSITION_IDS = true := by rfl
    rw [he, hself] at hpids
    simp at hpids
  rw [fix_model_lookup_ne _ k hnai htgt hneKP, stage3]
  exact stage3_fold_adds cfg ext best k t hpids mb m2 (dfind_mem mb k t hmem) hnd h2

/-- Witness for C7 (amended): the model_b-only key `first_stage_model.z`
contains `"model"` and is recovered verbatim. -/
theorem C7_stage3_recovery_witness :
    dfind (fix_model (stage3 ⟨"weighted_sum", false, 0, "16"⟩ extId
      [("first_stage_model.z", [7])] [] false)) "first_stage_model.z" =
      some [7] := by
  have h := C7_stage3_recovery ⟨"weighted_sum", false, 0, "16"⟩ extId false
    [("first_stage_model.z", [7])] [] "first_stage_model.z" [7]
    rfl (by simp) rfl rfl (by decide) (by decide)
  exact h.trans rfl

/-- Counterexample for C7 as stated: the model_b-only key
`first_stage_model.z` does **not** contain the diffusion-backbone marker
`model.diffusion_model.`, yet the saved output contains it (with model_b's
tensor), because Stage 3 only tests for the substring `model`. -/
theorem C7_counterexample :
    mergeModels ⟨"weighted_sum", false, 0, "16"⟩ extId
      [("model_a", [("akey", [1])]), ("model_b", [("first_stage_model.z", [7])])]
      [] [("alpha", 0)] false = .ok [("first_stage_model.z", [7])] ∧
    sContains "model.diffusion_model." "first_stage_model.z" = false ∧
    dfind [("first_stage_model.z", ([7] : Tensor))] "first_stage_model.z" = some [7] :=
  ⟨rfl, rfl, rfl⟩

/-- Witness for C9 at a concrete state: iteration 2, previous working file
on disk. -/
theorem C9_remove_previous_ckpt_lifecycle_witness :
    remove_previous_ckpt 2
      ⟨"s", "p", "n", mkOutFile "s" "p" 1, {mkOutFile "s" "p" 1}⟩ =
      .ok (rpcPost 2 ⟨"s", "p", "n", mkOutFile "s" "p" 1, {mkOutFile "s" "p" 1}⟩) ∧
    ∀ f ∈ (saveCkpt (rpcPost 2
        ⟨"s", "p", "n", mkOutFile "s" "p" 1, {mkOutFile "s" "p" 1}⟩)).files,
      (∃ j, f = mkOutFile "s" "p" j) → f = mkOutFile "s" "p" 2 := by
  have h := C9_remove_previous_ckpt_lifecycle 2
    ⟨"s", "p", "n", mkOutFile "s" "p" 1, {mkOutFile "s" "p" 1}⟩ (by norm_num) rfl
  refine ⟨h.1, h.2.2.2 ?_⟩
  intro f hf _
  simpa using hf

end BayesianMerger
